import Mathlib

/-!
Verification of the local-RAG document pipeline.

The development shallowly embeds the pure core of the repository:

* `document_processor.py`: `chunk_text`, `create_chunk_metadata`,
  `process_document`;
* `app.py`: the per-file ingestion loop of the sidebar (reading, chunking,
  embedding, upserting, and error collection per uploaded file);
* `embedding.py`: `build_rag_prompt`;
* `vectorstore.py`: `VectorStore.upsert_vectors`.

Python strings are embedded as `List Char` (for the chunker, whose claims
are character-level) or as `String` (for the prompt builder).  External
collaborators (the PDF/TXT extractor, the Ollama embedding endpoint, the
Qdrant client) are parameters: extraction results and embedding calls are
`Except`-valued inputs, the clock is an explicit argument, and the Qdrant
`upsert` is modelled by returning the list of points that would be sent.
-/

/-- ASCII whitespace as recognised by Python `str.strip()` with no
argument (space, tab, newline, carriage return, vertical tab, form feed).
`str.strip()` also removes other Unicode whitespace; the repository's
claims only depend on the test being applied consistently. -/
def pyIsSpace (c : Char) : Bool :=
  c = ' ' || c = '\t' || c = '\n' || c = '\r' || c = '\x0b' || c = '\x0c'

/-- Truthiness of `chunk.strip()` in `chunk_text`: the chunk survives the
`if chunk.strip():` test exactly when some character is not whitespace. -/
def keepChunk (l : List Char) : Bool :=
  l.any (fun c => !pyIsSpace c)

/-- The `while start < len(text)` loop body of `chunk_text`
(`document_processor.py`, lines 70-83): take `text[start:start+chunk_size]`,
append it when it is non-empty after trimming, advance `start` by `stride`
(the pre-computed `chunk_size - overlap`).  The loop is driven by explicit
fuel so that it is structurally recursive and kernel-evaluable; `chunk_text`
below supplies `text.length + 1` fuel, which dominates the iteration count
because the clamped stride is at least `1` whenever `chunkSize ≥ 1` (and for
`chunkSize = 0` every window is empty, so the Python loop also produces
`[]`). -/
def chunkLoop (text : List Char) (chunkSize stride : Nat) : Nat → Nat → List (List Char)
  | 0, _ => []
  | fuel + 1, start =>
    if start < text.length then
      (if keepChunk ((text.drop start).take chunkSize) then
        [(text.drop start).take chunkSize]
      else []) ++ chunkLoop text chunkSize stride fuel (start + stride)
    else []

/-- `chunk_text(text, chunk_size, overlap)` from `document_processor.py`:
clamp `overlap = min(overlap, chunk_size - 1)`, then slide a window of
`chunk_size` characters advancing by `chunk_size - overlap`, keeping the
windows that are non-empty after whitespace trimming (in pre-trim form).
The trailing `if start >= len(text): break` of the source is the loop
condition itself and needs no separate embedding. -/
def chunk_text (text : List Char) (chunkSize overlap : Nat) : List (List Char) :=
  chunkLoop text chunkSize (chunkSize - min overlap (chunkSize - 1)) (text.length + 1) 0

/-- Modelled from the spec: the number of window starts
`0, stride, 2*stride, ...` that are strictly below `len`, i.e.
`⌈len / stride⌉`. -/
def specNumWindows (len stride : Nat) : Nat := (len + stride - 1) / stride

/-- Modelled from the spec: the raw windows `text[k*stride : k*stride + chunkSize]`
for every start `k * stride < text.length`, in start order, before any
blank window is discarded (`stride` being `chunkSize - overlap`). -/
def chunk_windows (text : List Char) (chunkSize overlap : Nat) : List (List Char) :=
  (List.range (specNumWindows text.length (chunkSize - overlap))).map
    (fun k => (text.drop (k * (chunkSize - overlap))).take chunkSize)

/-- Modelled from the spec sentence behind C1: the windows in start order,
keeping exactly those whose whitespace-trimmed form is non-empty. -/
def chunk_text_spec (text : List Char) (chunkSize overlap : Nat) : List (List Char) :=
  (chunk_windows text chunkSize overlap).filter keepChunk

/-- Default `CHUNK_SIZE` from `config.py` (env-overridable; the model fixes
the documented default). -/
def CHUNK_SIZE : Nat := 500

/-- Default `CHUNK_OVERLAP` from `config.py` (env-overridable; the model
fixes the documented default). -/
def CHUNK_OVERLAP : Nat := 50

/-- The metadata dictionary built by `create_chunk_metadata`
(`document_processor.py`, lines 88-115). -/
structure ChunkMetadata where
  text : List Char
  source_file : String
  chunk_index : Nat
  total_chunks : Nat
  upload_timestamp : String
  file_type : String
deriving DecidableEq

/-- `create_chunk_metadata(chunk_text, chunk_index, total_chunks,
source_file_name, file_type)`: builds the metadata record.
`datetime.now().isoformat()` — the only impure input — is modelled by the
explicit `now` argument.  The source performs no validation of any kind. -/
def create_chunk_metadata (chunkText : List Char) (chunkIndex totalChunks : Nat)
    (sourceFileName fileType : String) (now : String) : ChunkMetadata :=
  { text := chunkText
    source_file := sourceFileName
    chunk_index := chunkIndex
    total_chunks := totalChunks
    upload_timestamp := now
    file_type := fileType }

/-- An uploaded file as the pipeline sees it: its name, its MIME type and
the result of `read_uploaded_file` (text extraction is an external
collaborator that may raise; `Except.error` models the raised exception,
`Except.ok` the extracted — already stripped — text). -/
structure Doc where
  name : String
  ftype : String
  extract : Except String (List Char)

/-- The `for i, chunk in enumerate(chunks)` loop of `process_document`:
embed each chunk in order (an embedding failure raises out of the loop, so
nothing after the failing chunk is produced) and build its metadata record.
`total` is `len(chunks)` and `i` the running index. -/
def processChunks {α : Type} (emb : List Char → Except String α)
    (name ftype now : String) (total : Nat) :
    List (List Char) → Nat → Except String (List α × List ChunkMetadata)
  | [], _ => .ok ([], [])
  | c :: rest, i =>
    match emb c with
    | .error e => .error e
    | .ok v =>
      match processChunks emb name ftype now total rest (i + 1) with
      | .error e => .error e
      | .ok (vs, ms) =>
        .ok (v :: vs, create_chunk_metadata c i total name ftype now :: ms)

/-- `process_document(uploaded_file, embedding_function)`
(`document_processor.py`, lines 118-157): extract the text, return
`([], [], 0)` when it is empty, otherwise chunk with the configured
defaults, embed every chunk and attach metadata.  Exceptions from
extraction or embedding propagate as `Except.error`. -/
def process_document {α : Type} (d : Doc) (emb : List Char → Except String α)
    (now : String) : Except String (List α × List ChunkMetadata × Nat) :=
  match d.extract with
  | .error e => .error e
  | .ok text =>
    if text.isEmpty then .ok ([], [], 0)
    else
      match processChunks emb d.name d.ftype now
          (chunk_text text CHUNK_SIZE CHUNK_OVERLAP).length
          (chunk_text text CHUNK_SIZE CHUNK_OVERLAP) 0 with
      | .error e => .error e
      | .ok (vs, ms) => .ok (vs, ms, (chunk_text text CHUNK_SIZE CHUNK_OVERLAP).length)

/-- One entry of the `errors` list collected by the upload loop in `app.py`:
either the warning for a file with no extracted text or the catch-all
failure message for a raised exception. -/
inductive BatchIssue where
  | warning (name : String)
  | failure (name msg : String)
deriving DecidableEq

/-- The state threaded through the upload loop of `app.py` (lines 55-87):
the points accumulated in Qdrant (id generation elided at this level),
`total_chunks`, and the collected `errors`. -/
structure IngestState (α : Type) where
  points : List (α × ChunkMetadata)
  totalChunks : Nat
  errors : List BatchIssue
deriving DecidableEq

/-- One iteration of `for file in uploaded_files` in `app.py`: process the
document; on success with a positive chunk count upsert all its
vector/metadata pairs and bump the total, on a zero chunk count record the
"No text extracted" warning, and on a raised exception record the failure
message.  Nothing is ever removed from `points`. -/
def ingestStep {α : Type} (emb : List Char → Except String α) (now : String)
    (st : IngestState α) (d : Doc) : IngestState α :=
  match process_document d emb now with
  | .ok (vs, ms, n) =>
    if 0 < n then
      { st with points := st.points ++ vs.zip ms, totalChunks := st.totalChunks + n }
    else
      { st with errors := st.errors ++ [.warning d.name] }
  | .error e => { st with errors := st.errors ++ [.failure d.name e] }

/-- The whole upload loop of `app.py` over a batch of files, starting from
an empty collection state. -/
def ingest_loop {α : Type} (emb : List Char → Except String α) (now : String)
    (docs : List Doc) : IngestState α :=
  docs.foldl (ingestStep emb now) ⟨[], 0, []⟩

/-- The points a single document contributes to the index under the app
loop: its zipped vector/metadata pairs when processing succeeds with a
positive chunk count, nothing otherwise. -/
def docPoints {α : Type} (emb : List Char → Except String α) (now : String)
    (d : Doc) : List (α × ChunkMetadata) :=
  match process_document d emb now with
  | .ok (vs, ms, n) => if 0 < n then vs.zip ms else []
  | .error _ => []

/-- The issues a single document contributes to the batch error list:
nothing on success, the warning on zero chunks, the failure on a raised
exception. -/
def docIssues {α : Type} (emb : List Char → Except String α) (now : String)
    (d : Doc) : List BatchIssue :=
  match process_document d emb now with
  | .ok (_, _, n) => if 0 < n then [] else [.warning d.name]
  | .error e => [.failure d.name e]

/-- Python `sep.join(parts)` as used by `build_rag_prompt`
(`"\n\n".join(context_chunks)`). -/
def pyJoin (sep : String) : List String → String
  | [] => ""
  | c :: cs => cs.foldl (fun acc x => acc ++ sep ++ x) c

/-- `build_rag_prompt(question, context_chunks)` from `embedding.py`,
lines 91-109: the literal prompt template of the source. -/
def build_rag_prompt (question : String) (contextChunks : List String) : String :=
  "You are a helpful assistant. Use the provided context to answer the question.\nIf the answer isn\x27t in the context, say you don\x27t know.\n\n"
    ++ "Context:\n" ++ pyJoin "\n\n" contextChunks ++ "\n\n"
    ++ "Question: " ++ question ++ "\n\n"
    ++ "Answer:"

/-- Modelled from the spec: the fixed instruction preamble ("use context;
say you don't know if the answer is absent"). -/
def ragInstructionPreamble : String :=
  "You are a helpful assistant. Use the provided context to answer the question.\nIf the answer isn\x27t in the context, say you don\x27t know.\n\n"

/-- Modelled from the spec: context chunks concatenated in their given
ranked order, separated by a blank line. -/
def joinBlankLine : List String → String
  | [] => ""
  | [c] => c
  | c :: cs => c ++ "\n\n" ++ joinBlankLine cs

/-- A Qdrant `PointStruct` as built by `VectorStore.upsert_vectors`:
a generated id, the vector and its payload. -/
structure PointStruct (α : Type) where
  id : String
  vector : α
  payload : ChunkMetadata
deriving DecidableEq

/-- `VectorStore.upsert_vectors(vectors, payloads)` (`vectorstore.py`,
lines 32-58): `zip` the two lists, build one point per pair with a freshly
generated `uuid4` id — modelled by the supply `freshId`, indexed by the
position of the point in the batch and independent of its content — send
the points, and return `len(points)`.  The model returns the sent points
alongside the count. -/
def upsert_vectors {α : Type} (freshId : Nat → String) (vectors : List α)
    (payloads : List ChunkMetadata) : List (PointStruct α) × Nat :=
  let points := ((vectors.zip payloads).enum).map
    (fun p => { id := freshId p.1, vector := p.2.1, payload := p.2.2 })
  (points, points.length)

/-- The C2 claim, literally, at one input: consecutive chunks agree on a
tail of length `overlap` against the next head, all chunks are non-blank,
and the concatenation of the `chunk_size - overlap`-character truncations
reads back a prefix of the input with no gaps. -/
def c2ClaimAt (text : List Char) (cs ov : Nat) : Prop :=
  (∀ i w1 w2, (chunk_text text cs ov)[i]? = some w1 →
      (chunk_text text cs ov)[i + 1]? = some w2 →
      w1.drop (w1.length - ov) = w2.take ov) ∧
  (∀ c ∈ chunk_text text cs ov, keepChunk c = true) ∧
  ((chunk_text text cs ov).map (fun c => c.take (cs - ov))).flatten =
    text.take (((chunk_text text cs ov).map (fun c => c.take (cs - ov))).flatten).length

/-- Concrete embedding function for the executable examples: embeds a chunk
as its length. -/
def embLen : List Char → Except String Nat := fun c => .ok c.length

/-- Concrete document whose extraction succeeds with the text `"hi"`. -/
def docHi : Doc := ⟨"a.txt", "text/plain", .ok ['h', 'i']⟩

/-- Concrete document whose extraction succeeds with the text `"ok"`. -/
def docOk : Doc := ⟨"b.txt", "text/plain", .ok ['o', 'k']⟩

/-- Concrete document whose extraction succeeds but yields no text. -/
def docEmpty : Doc := ⟨"empty.txt", "text/plain", .ok []⟩

/-- Concrete document whose extraction raises. -/
def docBad : Doc := ⟨"bad.pdf", "application/pdf", .error "boom"⟩

/-- The metadata record produced for the single chunk of `docHi` at
timestamp `"t"`. -/
def mHi : ChunkMetadata := ⟨['h', 'i'], "a.txt", 0, 1, "t", "text/plain"⟩

theorem specNumWindows_zero (stride : Nat) : specNumWindows 0 stride = 0 := by
  unfold specNumWindows
  cases stride with
  | zero => rfl
  | succ s => exact Nat.div_eq_of_lt (by omega)

theorem specNumWindows_succ {n stride : Nat} (hs : 0 < stride) (hn : 0 < n) :
    specNumWindows n stride = specNumWindows (n - stride) stride + 1 := by
  unfold specNumWindows
  rcases le_or_lt n stride with h | h
  · have h1 : n + stride - 1 = (n - 1) + stride := by omega
    have h2 : n - stride = 0 := by omega
    have h3 : (n - 1) / stride = 0 := Nat.div_eq_of_lt (by omega)
    have h4 : (0 + stride - 1) / stride = 0 := Nat.div_eq_of_lt (by omega)
    rw [h1, h2, Nat.add_div_right _ hs, h3, h4]
  · have h1 : n + stride - 1 = (n - 1) + stride := by omega
    have h2 : n - stride + stride - 1 = (n - stride - 1) + stride := by omega
    have h3 : n - 1 = (n - stride - 1) + stride := by omega
    rw [h1, h2, Nat.add_div_right _ hs, Nat.add_div_right _ hs, h3,
      Nat.add_div_right _ hs]

theorem chunkLoop_eq (text : List Char) (cs s : Nat) (hs : 0 < s) :
    ∀ fuel start, text.length - start < fuel →
      chunkLoop text cs s fuel start =
        ((List.range (specNumWindows (text.length - start) s)).map
          (fun k => (text.drop (start + k * s)).take cs)).filter keepChunk := by
  intro fuel
  induction fuel with
  | zero => intro start h; omega
  | succ fuel ih =>
    intro start h
    by_cases hlt : start < text.length
    · have hrec : text.length - (start + s) < fuel := by omega
      rw [chunkLoop, if_pos hlt, ih (start + s) hrec]
      have hN : specNumWindows (text.length - start) s
          = specNumWindows (text.length - (start + s)) s + 1 := by
        rw [specNumWindows_succ hs (by omega), Nat.sub_sub]
      rw [hN, List.range_succ_eq_map, List.map_cons, List.map_map, List.filter_cons]
      have harg : ∀ k : Nat, start + Nat.succ k * s = start + s + k * s := by
        intro k; rw [Nat.succ_mul]; omega
      have hfun : ((fun k => (text.drop (start + k * s)).take cs) ∘ Nat.succ) =
          (fun k => (text.drop (start + s + k * s)).take cs) := by
        funext k
        simp only [Function.comp_apply, harg k]
      rw [hfun]
      simp only [Nat.zero_mul, Nat.add_zero]
      by_cases hk : keepChunk ((text.drop start).take cs)
      · rw [if_pos hk, if_pos hk]; rfl
      · rw [if_neg hk, if_neg hk]; rfl
    · rw [chunkLoop, if_neg hlt]
      have h0 : text.length - start = 0 := by omega
      rw [h0, specNumWindows_zero]
      rfl

theorem chunk_text_eq_filter_windows (text : List Char) (cs ov : Nat)
    (hcs : 0 < cs) (hov : ov < cs) :
    chunk_text text cs ov = (chunk_windows text cs ov).filter keepChunk := by
  unfold chunk_text chunk_windows
  have hmin : min ov (cs - 1) = ov := by omega
  rw [hmin]
  rw [chunkLoop_eq text cs (cs - ov) (by omega) (text.length + 1) 0 (by omega)]
  simp only [Nat.sub_zero, Nat.zero_add]

/-- C1: for chunk_size > 0 and overlap < chunk_size, `chunk_text` returns
exactly the windows `text[start : start + chunk_size]` for
`start = 0, chunk_size - overlap, 2*(chunk_size - overlap), ...` while
`start < length text`, keeping (pre-trim) each window whose trimmed form is
non-empty and discarding the whitespace-only windows. -/
theorem chunk_text_matches_window_spec (text : List Char) (cs ov : Nat)
    (hcs : 0 < cs) (hov : ov < cs) :
    chunk_text text cs ov = chunk_text_spec text cs ov :=
  chunk_text_eq_filter_windows text cs ov hcs hov

theorem chunk_text_matches_window_spec_witness :
    0 < 2 ∧ 1 < 2 ∧ chunk_text ['a', 'b', 'c'] 2 1 = chunk_text_spec ['a', 'b', 'c'] 2 1 :=
  ⟨by decide, by decide,
    chunk_text_matches_window_spec ['a', 'b', 'c'] 2 1 (by decide) (by decide)⟩

theorem le_specNumWindows_mul {n s : Nat} (hs : 0 < s) : n ≤ specNumWindows n s * s := by
  unfold specNumWindows
  have h1 := Nat.div_add_mod (n + s - 1) s
  have h2 : (n + s - 1) % s < s := Nat.mod_lt _ hs
  rw [Nat.mul_comm]
  omega

theorem flatten_take_pieces (s : Nat) :
    ∀ (N : Nat) (t : List Char), t.length ≤ N * s →
      ((List.range N).map (fun k => (t.drop (k * s)).take s)).flatten = t := by
  intro N
  induction N with
  | zero =>
    intro t ht
    rw [Nat.zero_mul] at ht
    have ht0 : t = [] := List.eq_nil_of_length_eq_zero (by omega)
    rw [ht0]
    rfl
  | succ N ih =>
    intro t ht
    rw [List.range_succ_eq_map, List.map_cons, List.map_map, List.flatten_cons]
    have hfun : ((fun k => (t.drop (k * s)).take s) ∘ Nat.succ) =
        (fun k => ((t.drop s).drop (k * s)).take s) := by
      funext k
      have h' : Nat.succ k * s = s + k * s := by rw [Nat.succ_mul]; omega
      simp only [Function.comp_apply, List.drop_drop, h']
    rw [hfun, Nat.zero_mul, List.drop_zero]
    rw [ih (t.drop s) (by rw [List.length_drop]; rw [Nat.succ_mul] at ht; omega)]
    exact List.take_append_drop s t

theorem windows_consecutive_overlap (text : List Char) (cs ov : Nat) (hov : ov ≤ cs) :
    ∀ i w1 w2, (chunk_windows text cs ov)[i]? = some w1 →
      (chunk_windows text cs ov)[i + 1]? = some w2 →
      w1.drop (cs - ov) = w2.take ov := by
  intro i w1 w2 h1 h2
  unfold chunk_windows at h1 h2
  have hi1 : i + 1 < specNumWindows text.length (cs - ov) := by
    by_contra hcon
    rw [List.getElem?_eq_none (by
      rw [List.length_map, List.length_range]; omega)] at h2
    exact Option.noConfusion h2
  rw [List.getElem?_map, List.getElem?_range (by omega)] at h1
  rw [List.getElem?_map, List.getElem?_range hi1] at h2
  simp only [Option.map_some', Option.some.injEq] at h1 h2
  have hw1 : w1 = (text.drop (i * (cs - ov))).take cs := h1.symm
  have hw2 : w2 = (text.drop ((i + 1) * (cs - ov))).take cs := h2.symm
  rw [hw1, hw2, List.drop_take, List.drop_drop, List.take_take]
  have ha : cs - (cs - ov) = ov := by omega
  have hb : i * (cs - ov) + (cs - ov) = (i + 1) * (cs - ov) := by
    rw [Nat.succ_mul]
  have hc : min ov cs = ov := min_eq_left hov
  rw [ha, hb, hc]

/-- C2 (amended): when `chunk_size > 0`, `overlap < chunk_size` and no
window of the input is whitespace-only (so no window is discarded),
`chunk_text` returns exactly the window sequence; every non-terminal
chunk agrees with its successor on the overlap region, in the form
`chunk.drop (chunk_size - overlap) = next.take overlap` (for full-length
chunks this is precisely the tail of length `overlap`); every chunk is
non-empty after trimming; and concatenating the
`chunk_size - overlap`-character truncations of the chunks, in order,
reconstructs the whole input text with no gaps. -/
theorem chunk_invariants_no_blank_windows (text : List Char) (cs ov : Nat)
    (hcs : 0 < cs) (hov : ov < cs)
    (hkeep : ∀ w ∈ chunk_windows text cs ov, keepChunk w = true) :
    chunk_text text cs ov = chunk_windows text cs ov ∧
    (∀ i w1 w2, (chunk_text text cs ov)[i]? = some w1 →
        (chunk_text text cs ov)[i + 1]? = some w2 →
        w1.drop (cs - ov) = w2.take ov) ∧
    (∀ c ∈ chunk_text text cs ov, keepChunk c = true) ∧
    ((chunk_text text cs ov).map (fun c => c.take (cs - ov))).flatten = text := by
  have heq : chunk_text text cs ov = chunk_windows text cs ov := by
    rw [chunk_text_eq_filter_windows text cs ov hcs hov]
    exact List.filter_eq_self.mpr hkeep
  refine ⟨heq, ?_, ?_, ?_⟩
  · intro i w1 w2 h1 h2
    rw [heq] at h1 h2
    exact windows_consecutive_overlap text cs ov (by omega) i w1 w2 h1 h2
  · intro c hc
    rw [heq] at hc
    exact hkeep c hc
  · rw [heq]
    unfold chunk_windows
    rw [List.map_map]
    have hfun : ((fun c : List Char => c.take (cs - ov)) ∘
        (fun k => (text.drop (k * (cs - ov))).take cs)) =
        (fun k => (text.drop (k * (cs - ov))).take (cs - ov)) := by
      funext k
      simp only [Function.comp_apply, List.take_take]
      rw [min_eq_left (by omega : cs - ov ≤ cs)]
    rw [hfun]
    exact flatten_take_pieces (cs - ov) (specNumWindows text.length (cs - ov)) text
      (le_specNumWindows_mul (by omega))

theorem chunk_invariants_no_blank_windows_witness :
    (∀ w ∈ chunk_windows ['a', 'b', 'c', 'd', 'e', 'f'] 3 1, keepChunk w = true) ∧
    (chunk_text ['a', 'b', 'c', 'd', 'e', 'f'] 3 1 =
        chunk_windows ['a', 'b', 'c', 'd', 'e', 'f'] 3 1 ∧
      (∀ i w1 w2, (chunk_text ['a', 'b', 'c', 'd', 'e', 'f'] 3 1)[i]? = some w1 →
          (chunk_text ['a', 'b', 'c', 'd', 'e', 'f'] 3 1)[i + 1]? = some w2 →
          w1.drop (3 - 1) = w2.take 1) ∧
      (∀ c ∈ chunk_text ['a', 'b', 'c', 'd', 'e', 'f'] 3 1, keepChunk c = true) ∧
      ((chunk_text ['a', 'b', 'c', 'd', 'e', 'f'] 3 1).map
          (fun c => c.take (3 - 1))).flatten = ['a', 'b', 'c', 'd', 'e', 'f']) :=
  ⟨by decide,
    chunk_invariants_no_blank_windows ['a', 'b', 'c', 'd', 'e', 'f'] 3 1
      (by decide) (by decide) (by decide)⟩

/-- C2 counterexample: the claim as stated fails on the code.  With text
`"abc"`, `chunk_size = 3`, `overlap = 2` the chunks are
`["abc", "bc", "c"]` and the non-terminal chunk `"bc"` has tail of length
2 equal to `"bc"`, while the next chunk's head is `"c"`.  With text
`"a \tb"`, `chunk_size = 2`, `overlap = 1` the whitespace-only window
`" \t"` is discarded, so the concatenated truncations `"a\tb"` skip the
character at offset 1 and are not a gap-free prefix reading of the text. -/
theorem chunk_overlap_claim_fails :
    ¬ c2ClaimAt ['a', 'b', 'c'] 3 2 ∧ ¬ c2ClaimAt ['a', ' ', '\t', 'b'] 2 1 := by
  constructor
  · intro h
    have h1 := h.1 1 ['b', 'c'] ['c'] (by decide) (by decide)
    exact absurd h1 (by decide)
  · intro h
    have h3 := h.2.2
    exact absurd h3 (by decide)

/-- C3 (amended): for `chunk_size > 0` and `overlap < chunk_size`,
`chunk_text` on the empty string returns the empty sequence; and for any
text that is non-empty after whitespace trimming and whose length is at
most `chunk_size - overlap` (so that the advanced cursor already passes the
end of the text), it returns exactly one chunk equal to the whole text. -/
theorem chunk_text_small_input (cs ov : Nat) (hcs : 0 < cs) (hov : ov < cs) :
    chunk_text [] cs ov = [] ∧
    ∀ text : List Char, keepChunk text = true → text.length ≤ cs - ov →
      chunk_text text cs ov = [text] := by
  constructor
  · rfl
  · intro text hk hlen
    have hlt : 0 < text.length := by
      cases text with
      | nil => exact absurd hk (by decide)
      | cons a l => simp
    rw [chunk_text_eq_filter_windows text cs ov hcs hov]
    unfold chunk_windows
    have hN : specNumWindows text.length (cs - ov) = 1 := by
      rw [specNumWindows_succ (by omega) hlt]
      have h0 : text.length - (cs - ov) = 0 := by omega
      rw [h0, specNumWindows_zero]
    rw [hN]
    have hr1 : List.range 1 = [0] := rfl
    rw [hr1]
    simp only [List.map_cons, List.map_nil, Nat.zero_mul, List.drop_zero]
    rw [List.take_of_length_le (by omega)]
    simp [List.filter_cons, hk]

theorem chunk_text_small_input_witness :
    chunk_text [] 3 1 = [] ∧ chunk_text ['h', 'i'] 3 1 = [['h', 'i']] :=
  ⟨(chunk_text_small_input 3 1 (by decide) (by decide)).1,
    (chunk_text_small_input 3 1 (by decide) (by decide)).2 ['h', 'i']
      (by decide) (by decide)⟩

/-- C3 counterexample: the claim as stated fails on the code at two
inputs inside its scope.  The whitespace-only text `" "` (length 1 < 2)
yields no chunk at all, because the only window is discarded by the
`chunk.strip()` test; and the text `"ab"` with `chunk_size = 3`,
`overlap = 2` (length 2 < 3, valid overlap) yields the two chunks
`["ab", "b"]`, because the cursor advances by only
`chunk_size - overlap = 1` and re-enters the text. -/
theorem chunk_small_text_claim_fails :
    (chunk_text [' '] 2 0 = [] ∧ ¬ chunk_text [' '] 2 0 = [[' ']]) ∧
    (chunk_text ['a', 'b'] 3 2 = [['a', 'b'], ['b']] ∧
      ¬ chunk_text ['a', 'b'] 3 2 = [['a', 'b']]) := by
  decide

theorem chunkLoop_length_le (text : List Char) (cs s : Nat) (hs : 0 < s) :
    ∀ fuel start, (chunkLoop text cs s fuel start).length ≤ text.length - start := by
  intro fuel
  induction fuel with
  | zero => intro start; simp [chunkLoop]
  | succ fuel ih =>
    intro start
    rw [chunkLoop]
    by_cases hlt : start < text.length
    · rw [if_pos hlt]
      have hrest := ih (start + s)
      rw [List.length_append]
      have hhead :
          (if keepChunk ((text.drop start).take cs) then
            [(text.drop start).take cs] else []).length ≤ 1 := by
        split <;> simp
      omega
    · rw [if_neg hlt]; simp

/-- C4: for `chunk_size > 0`, an overlap `≥ chunk_size` is clamped to
`chunk_size - 1` before chunking, so the result coincides with
`chunk_text text chunk_size (chunk_size - 1)`; and the loop terminates —
witnessed here by the total model together with the bound that it performs
at most `length text` iterations, so the chunk list never exceeds
`length text` entries. -/
theorem chunk_text_clamp_and_terminates (text : List Char) (cs ov : Nat) (hcs : 0 < cs) :
    (cs ≤ ov → chunk_text text cs ov = chunk_text text cs (cs - 1)) ∧
    (chunk_text text cs ov).length ≤ text.length := by
  constructor
  · intro hle
    unfold chunk_text
    have h1 : min ov (cs - 1) = cs - 1 := by omega
    have h2 : min (cs - 1) (cs - 1) = cs - 1 := by omega
    rw [h1, h2]
  · unfold chunk_text
    have hb := chunkLoop_length_le text cs (cs - min ov (cs - 1)) (by omega)
      (text.length + 1) 0
    omega

theorem chunk_text_clamp_and_terminates_witness :
    chunk_text ['a', 'b', 'c'] 2 5 = chunk_text ['a', 'b', 'c'] 2 1 ∧
    (chunk_text ['a', 'b', 'c'] 2 5).length ≤ 3 :=
  ⟨(chunk_text_clamp_and_terminates ['a', 'b', 'c'] 2 5 (by decide)).1 (by decide),
    (chunk_text_clamp_and_terminates ['a', 'b', 'c'] 2 5 (by decide)).2⟩

theorem processChunks_ok {α : Type} (emb : List Char → Except String α)
    (name ftype now : String) (total : Nat) :
    ∀ (chunks : List (List Char)) (i : Nat) (vs : List α) (ms : List ChunkMetadata),
      processChunks emb name ftype now total chunks i = .ok (vs, ms) →
      vs.length = chunks.length ∧ ms.length = chunks.length ∧
      ∀ j m, ms[j]? = some m → m.chunk_index = i + j ∧ m.total_chunks = total := by
  intro chunks
  induction chunks with
  | nil =>
    intro i vs ms h
    simp only [processChunks, Except.ok.injEq, Prod.mk.injEq] at h
    obtain ⟨h1, h2⟩ := h
    subst h1
    subst h2
    refine ⟨rfl, rfl, ?_⟩
    intro j m hj
    simp at hj
  | cons c rest ih =>
    intro i vs ms h
    simp only [processChunks] at h
    cases hemb : emb c with
    | error e => rw [hemb] at h; simp at h
    | ok v =>
      rw [hemb] at h
      cases hrec : processChunks emb name ftype now total rest (i + 1) with
      | error e => rw [hrec] at h; simp at h
      | ok p =>
        obtain ⟨vs', ms'⟩ := p
        rw [hrec] at h
        simp only [Except.ok.injEq, Prod.mk.injEq] at h
        obtain ⟨h1, h2⟩ := h
        subst h1
        subst h2
        obtain ⟨ih1, ih2, ih3⟩ := ih (i + 1) vs' ms' hrec
        refine ⟨by simp [ih1], by simp [ih2], ?_⟩
        intro j m hj
        cases j with
        | zero =>
          rw [List.getElem?_cons_zero] at hj
          simp only [Option.some.injEq] at hj
          subst hj
          exact ⟨by simp [create_chunk_metadata], rfl⟩
        | succ j' =>
          rw [List.getElem?_cons_succ] at hj
          obtain ⟨ha, hb⟩ := ih3 j' m hj
          exact ⟨by omega, hb⟩

/-- C5: whenever `process_document` succeeds, the vector list, the
metadata list and the chunk count agree (`length vs = length ms = n`), the
`i`-th metadata record carries `chunk_index = i` (contiguous from 0) and
every record carries `total_chunks = n`. -/
theorem process_document_counts {α : Type} (d : Doc) (emb : List Char → Except String α)
    (now : String) (vs : List α) (ms : List ChunkMetadata) (n : Nat)
    (h : process_document d emb now = .ok (vs, ms, n)) :
    vs.length = n ∧ ms.length = n ∧
    ∀ (i : Nat) (m : ChunkMetadata), ms[i]? = some m →
      m.chunk_index = i ∧ m.total_chunks = n := by
  unfold process_document at h
  split at h
  · exact absurd h (by simp)
  · rename_i text
    split at h
    · simp only [Except.ok.injEq, Prod.mk.injEq] at h
      obtain ⟨h1, h2, h3⟩ := h
      subst h1
      subst h2
      subst h3
      refine ⟨rfl, rfl, ?_⟩
      intro i m hi
      simp at hi
    · split at h
      · exact absurd h (by simp)
      · rename_i vs' ms' hrec
        simp only [Except.ok.injEq, Prod.mk.injEq] at h
        obtain ⟨h1, h2, h3⟩ := h
        subst h1
        subst h2
        subst h3
        obtain ⟨ih1, ih2, ih3⟩ :=
          processChunks_ok emb d.name d.ftype now _ _ 0 vs' ms' hrec
        refine ⟨ih1, ih2, ?_⟩
        intro i m hi
        obtain ⟨ha, hb⟩ := ih3 i m hi
        exact ⟨by omega, hb⟩

theorem process_document_counts_witness :
    process_document docHi embLen "t" = .ok ([2], [mHi], 1) ∧
    ([2] : List Nat).length = 1 ∧ [mHi].length = 1 ∧
    (mHi.chunk_index = 0 ∧ mHi.total_chunks = 1) :=
  ⟨rfl,
    (process_document_counts docHi embLen "t" [2] [mHi] 1 rfl).1,
    (process_document_counts docHi embLen "t" [2] [mHi] 1 rfl).2.1,
    (process_document_counts docHi embLen "t" [2] [mHi] 1 rfl).2.2 0 mHi rfl⟩

/-- C6 (amended): `create_chunk_metadata` copies its five arguments and
the call-time timestamp into the corresponding fields of the record. -/
theorem create_chunk_metadata_fields (c : List Char) (i tot : Nat)
    (name ftype now : String) :
    (create_chunk_metadata c i tot name ftype now).text = c ∧
    (create_chunk_metadata c i tot name ftype now).source_file = name ∧
    (create_chunk_metadata c i tot name ftype now).chunk_index = i ∧
    (create_chunk_metadata c i tot name ftype now).total_chunks = tot ∧
    (create_chunk_metadata c i tot name ftype now).upload_timestamp = now ∧
    (create_chunk_metadata c i tot name ftype now).file_type = ftype :=
  ⟨rfl, rfl, rfl, rfl, rfl, rfl⟩

/-- C6 counterexample: the source performs no validation whatsoever, so an
input with `chunk_index = 5 ≥ 2 = total_chunks` is not rejected — it
produces a perfectly ordinary record carrying those values. -/
theorem create_chunk_metadata_no_validation :
    create_chunk_metadata ['x'] 5 2 "f.txt" "text/plain" "t" =
      ⟨['x'], "f.txt", 5, 2, "t", "text/plain"⟩ ∧ ¬ (5 < 2) :=
  ⟨rfl, by decide⟩

/-- C7: a document whose extraction succeeds with empty text makes
`process_document` return empty vectors, empty metadata and chunk count 0
as a success value (`Except.ok`, not an exception), and the app batch loop
records it as the warning-level `BatchIssue.warning` — the constructor
distinct from the hard-error `BatchIssue.failure` — upserting nothing. -/
theorem empty_extraction_zero_chunks {α : Type} (emb : List Char → Except String α)
    (now : String) (d : Doc) (h : d.extract = .ok []) :
    process_document d emb now = .ok ([], [], 0) ∧
    (ingest_loop emb now [d]).points = [] ∧
    (ingest_loop emb now [d]).totalChunks = 0 ∧
    (ingest_loop emb now [d]).errors = [BatchIssue.warning d.name] := by
  have hpd : process_document d emb now = .ok ([], [], 0) := by
    unfold process_document
    rw [h]
    rfl
  refine ⟨hpd, ?_, ?_, ?_⟩ <;> simp [ingest_loop, ingestStep, hpd]

theorem empty_extraction_zero_chunks_witness :
    docEmpty.extract = Except.ok [] ∧
    process_document docEmpty embLen "t" = .ok ([], [], 0) ∧
    (ingest_loop embLen "t" [docEmpty]).points = [] ∧
    (ingest_loop embLen "t" [docEmpty]).totalChunks = 0 ∧
    (ingest_loop embLen "t" [docEmpty]).errors = [BatchIssue.warning docEmpty.name] :=
  ⟨rfl,
    (empty_extraction_zero_chunks embLen "t" docEmpty rfl).1,
    (empty_extraction_zero_chunks embLen "t" docEmpty rfl).2.1,
    (empty_extraction_zero_chunks embLen "t" docEmpty rfl).2.2.1,
    (empty_extraction_zero_chunks embLen "t" docEmpty rfl).2.2.2⟩

theorem ingestFold_points {α : Type} (emb : List Char → Except String α) (now : String) :
    ∀ (docs : List Doc) (st : IngestState α),
      (docs.foldl (ingestStep emb now) st).points =
        st.points ++ (docs.map (docPoints emb now)).flatten := by
  intro docs
  induction docs with
  | nil => intro st; simp
  | cons d ds ih =>
    intro st
    rw [List.foldl_cons, ih]
    have hstep : (ingestStep emb now st d).points = st.points ++ docPoints emb now d := by
      unfold ingestStep docPoints
      cases hpd : process_document d emb now with
      | ok p =>
        obtain ⟨vs, ms, n⟩ := p
        by_cases hn : 0 < n
        · simp [hn]
        · simp [hn]
      | error e => simp
    rw [hstep, List.map_cons, List.flatten_cons, List.append_assoc]

theorem ingestFold_errors {α : Type} (emb : List Char → Except String α) (now : String) :
    ∀ (docs : List Doc) (st : IngestState α),
      (docs.foldl (ingestStep emb now) st).errors =
        st.errors ++ (docs.map (docIssues emb now)).flatten := by
  intro docs
  induction docs with
  | nil => intro st; simp
  | cons d ds ih =>
    intro st
    rw [List.foldl_cons, ih]
    have hstep : (ingestStep emb now st d).errors = st.errors ++ docIssues emb now d := by
      unfold ingestStep docIssues
      cases hpd : process_document d emb now with
      | ok p =>
        obtain ⟨vs, ms, n⟩ := p
        by_cases hn : 0 < n
        · simp [hn]
        · simp [hn]
      | error e => simp
    rw [hstep, List.map_cons, List.flatten_cons, List.append_assoc]

/-- C8: if `process_document` raises for one document `d` of a batch
(extraction or embedding failure), then the points stored by the batch run
are exactly the points of the batch without `d` — no chunk of `d` is
upserted, all-or-nothing per document — while the failure is recorded in
the error list between the issues of the preceding and following
documents, whose own processing and upserts are unaffected. -/
theorem ingest_failure_isolated {α : Type} (emb : List Char → Except String α)
    (now : String) (pre post : List Doc) (d : Doc) (e : String)
    (h : process_document d emb now = .error e) :
    (ingest_loop emb now (pre ++ d :: post)).points =
      (ingest_loop emb now (pre ++ post)).points ∧
    (ingest_loop emb now (pre ++ d :: post)).errors =
      (ingest_loop emb now pre).errors ++
        BatchIssue.failure d.name e :: (ingest_loop emb now post).errors := by
  have hdp : docPoints emb now d = [] := by
    unfold docPoints
    rw [h]
  have hdi : docIssues emb now d = [.failure d.name e] := by
    unfold docIssues
    rw [h]
  unfold ingest_loop
  rw [ingestFold_points, ingestFold_points, ingestFold_errors, ingestFold_errors,
    ingestFold_errors]
  constructor
  · simp [List.map_append, List.flatten_append, hdp]
  · simp [List.map_append, List.flatten_append, hdi]

theorem ingest_failure_isolated_witness :
    process_document docBad embLen "t" = Except.error "boom" ∧
    ((ingest_loop embLen "t" [docHi, docBad, docOk]).points =
        (ingest_loop embLen "t" [docHi, docOk]).points ∧
      (ingest_loop embLen "t" [docHi, docBad, docOk]).errors =
        (ingest_loop embLen "t" [docHi]).errors ++
          BatchIssue.failure docBad.name "boom" ::
            (ingest_loop embLen "t" [docOk]).errors) :=
  ⟨rfl, ingest_failure_isolated embLen "t" [docHi] [docOk] docBad "boom" rfl⟩

theorem foldl_append_sep (sep : String) :
    ∀ (cs : List String) (a b : String),
      cs.foldl (fun acc x => acc ++ sep ++ x) (a ++ b) =
        a ++ cs.foldl (fun acc x => acc ++ sep ++ x) b := by
  intro cs
  induction cs with
  | nil => intro a b; rfl
  | cons x xs ih =>
    intro a b
    rw [List.foldl_cons, List.foldl_cons, String.append_assoc a b sep,
      String.append_assoc a (b ++ sep) x]
    exact ih a ((b ++ sep) ++ x)

theorem pyJoin_eq_joinBlankLine (l : List String) :
    pyJoin "\n\n" l = joinBlankLine l := by
  induction l with
  | nil => rfl
  | cons c cs ih =>
    cases cs with
    | nil => rfl
    | cons c2 cs2 =>
      have h1 : joinBlankLine (c :: c2 :: cs2) =
          c ++ "\n\n" ++ joinBlankLine (c2 :: cs2) := rfl
      have h2 : pyJoin "\n\n" (c :: c2 :: cs2) =
          (c2 :: cs2).foldl (fun acc x => acc ++ "\n\n" ++ x) c := rfl
      have h3 : pyJoin "\n\n" (c2 :: cs2) =
          cs2.foldl (fun acc x => acc ++ "\n\n" ++ x) c2 := rfl
      rw [h1, h2, List.foldl_cons, ← ih, h3]
      exact foldl_append_sep "\n\n" cs2 (c ++ "\n\n") c2

/-- C9: `build_rag_prompt` is a pure function of the question and the
chunk list, equal to the fixed instruction preamble, then the context
chunks joined in ranked order by a blank line, then the question, then the
`"Answer:"` cue — the fields in exactly that order. -/
theorem build_rag_prompt_template (question : String) (contextChunks : List String) :
    build_rag_prompt question contextChunks =
      ragInstructionPreamble ++ "Context:\n" ++ joinBlankLine contextChunks ++ "\n\n"
        ++ "Question: " ++ question ++ "\n\n" ++ "Answer:" := by
  unfold build_rag_prompt ragInstructionPreamble
  rw [pyJoin_eq_joinBlankLine]

/-- C10: `upsert_vectors` builds and sends exactly
`min (length vectors) (length payloads)` points — any excess entries of the
longer list are silently dropped — returns that number, pairs the
surviving vectors and payloads positionally, and draws every point id from
the fresh-id supply by batch position, independent of the point's
content. -/
theorem upsert_vectors_zip_fresh {α : Type} (freshId : Nat → String)
    (vectors : List α) (payloads : List ChunkMetadata) :
    (upsert_vectors freshId vectors payloads).2 =
      min vectors.length payloads.length ∧
    (upsert_vectors freshId vectors payloads).1.map
        (fun p => (p.vector, p.payload)) = vectors.zip payloads ∧
    (upsert_vectors freshId vectors payloads).1.map (fun p => p.id) =
      (List.range (min vectors.length payloads.length)).map freshId := by
  unfold upsert_vectors
  refine ⟨?_, ?_, ?_⟩
  · simp [List.length_map, List.enum_length, List.length_zip]
  · rw [List.map_map]
    have hfun : ((fun p : PointStruct α => (p.vector, p.payload)) ∘
        (fun p : Nat × (α × ChunkMetadata) =>
          ({ id := freshId p.1, vector := p.2.1, payload := p.2.2 } : PointStruct α))) =
        Prod.snd := by
      funext p
      rfl
    rw [hfun, List.enum_map_snd]
  · rw [List.map_map]
    have hfun : ((fun p : PointStruct α => p.id) ∘
        (fun p : Nat × (α × ChunkMetadata) =>
          ({ id := freshId p.1, vector := p.2.1, payload := p.2.2 } : PointStruct α))) =
        (freshId ∘ Prod.fst) := by
      funext p
      rfl
    rw [hfun, ← List.map_map, List.enum_map_fst, List.length_zip]
